import Mathlib

/-!
Shallow embedding of the ConfigurationBenchmark utility (src/src/Benchmark.cxx).

Modelling conventions:
* C++ `int` values are modelled as `ℤ` (no claim depends on 32-bit overflow;
  loop counters that are provably non-negative are sometimes `ℕ`).
* `ParameterMap` (`std::map<std::string, std::string>`) is modelled as an
  insertion-ordered association list together with `std::map`-faithful
  operations: `emplace` inserts only when the key is absent, `countKey`
  models `count`, and `mapIndex` models `operator[]` (which inserts a
  default-constructed value when the key is absent).  `std::map` iterates
  in key order while the list keeps insertion order; every property proved
  below is insensitive to iteration order (entry counts, membership,
  per-entry mismatch counting), except where the insertion order itself is
  the object of the claim (the depth-first pre-order of tree generation).
* `boost::lexical_cast<std::string>(int)` is the usual decimal rendering,
  modelled by `intDec` / `natDec` built from `Nat.digits`.
* `std::setw(95)` with `std::setfill('0')` right-adjusts the rendered
  number in a field of width 95, modelled by `padZeros`.
-/

/-- Decimal digit character (`'0'` … `'9'`) for a digit `d < 10`. -/
def digitChar (d : ℕ) : Char := Char.ofNat (48 + d)

/-- Digit-list builder for `natDec`: repeatedly divide by 10, emitting the
least significant digit last.  The first argument is recursion fuel (any
fuel ≥ n computes the full digit string; `natDec` passes `n` itself). -/
def natDecGo : ℕ → ℕ → List Char
  | 0, _ => []
  | fuel + 1, n => if n = 0 then [] else natDecGo fuel (n / 10) ++ [digitChar (n % 10)]

/-- Decimal rendering of a natural number (most significant digit first),
as produced by `boost::lexical_cast<std::string>` on a non-negative `int`. -/
def natDec (n : ℕ) : String :=
  if n = 0 then "0" else String.mk (natDecGo n n)

/-- Decimal rendering of an `int`, negative values prefixed with `-`. -/
def intDec (n : ℤ) : String :=
  if n < 0 then "-" ++ natDec (-n).toNat else natDec n.toNat

/-- Right-adjust `s` in a field of `width` characters, filling with `'0'`
(the effect of `std::setw(width)` + `std::setfill('0')` on output). -/
def padZeros (width : ℕ) (s : String) : String :=
  String.mk (List.replicate (width - s.length) '0') ++ s

/-- `makeValue` (Benchmark.cxx:191): `"value"` followed by the number
zero-padded to a 95-character field. -/
def makeValue (number : ℤ) : String := "value" ++ padZeros 95 (intDec number)

/-- A `ParameterMap` (`std::map<std::string, std::string>`), modelled as an
association list in insertion order; all constructions below go through
`emplace`, which keeps keys unique. -/
abbrev ParameterMap := List (String × String)

/-- Key membership test (`map.count(key) != 0` / `find != end`). -/
def containsKey (m : ParameterMap) (key : String) : Bool :=
  m.any (fun kv => kv.1 = key)

/-- `std::map::emplace`: inserts `(key, value)` only when `key` is absent. -/
def emplace (m : ParameterMap) (key value : String) : ParameterMap :=
  if containsKey m key then m else m ++ [(key, value)]

/-- `std::map::count` for a unique-key map (number of entries with this key). -/
def countKey (m : ParameterMap) (key : String) : ℕ :=
  (m.filter (fun kv => kv.1 = key)).length

/-- `std::map::operator[]`: returns the mapped value, inserting a
default-constructed (empty) string first when the key is absent.  Returns
the looked-up value together with the possibly-extended map. -/
def mapIndex (m : ParameterMap) (key : String) : String × ParameterMap :=
  match m.find? (fun kv => kv.1 = key) with
  | some kv => (kv.2, m)
  | none => ("", m ++ [(key, "")])

/-- `flatParameterPath` (Benchmark.cxx:181). -/
def flatParameterPath (nParameters : ℤ) : String :=
  "/test/flat" ++ intDec nParameters

/-- `treeParameterPath` (Benchmark.cxx:186). -/
def treeParameterPath (nParameters : ℤ) : String :=
  "/test/tree" ++ intDec nParameters

/-- `createParameterMapSeparate` (Benchmark.cxx:234): emplaces
`/test/separate/key{i} -> makeValue i` for `i = 0 … nParams-1` (the loop
runs from `pathMin = 0` to `pathMax = nParams - 1` inclusive, hence not at
all when `nParams ≤ 0`). -/
def createParameterMapSeparate (nParams : ℤ) : ParameterMap :=
  (List.range nParams.toNat).foldl
    (fun m i => emplace m ("/test/separate/key" ++ natDec i) (makeValue i)) []

/-- `createParameterMapCombined` (Benchmark.cxx:250): streams
`key{i}=value{i padded to 95}|` for `i = 0 … nParams-1` into one string and
emplaces it under `/test/combined/key{nParams}`. -/
def createParameterMapCombined (nParams : ℤ) : ParameterMap :=
  let str := (List.range nParams.toNat).foldl
    (fun acc i => acc ++ "key" ++ natDec i ++ "=value" ++ padZeros 95 (natDec i) ++ "|") ""
  emplace [] ("/test/combined/key" ++ intDec nParams) str

/-- `createParameterMapFlat` (Benchmark.cxx:263): emplaces
`/test/flat{n}/key{i} -> makeValue i` for `i = 0 … nParameters-1`. -/
def createParameterMapFlat (nParameters : ℤ) : ParameterMap :=
  (List.range nParameters.toNat).foldl
    (fun m i =>
      emplace m (flatParameterPath nParameters ++ "/" ++ "key" ++ natDec i) (makeValue i)) []

/-- Loop of the `findDepth` lambda (Benchmark.cxx:316): accumulate
`maxElements += 2^depth * paramsPerLevel` and return the first `depth` at
which `nParameters ≤ maxElements`.  The C++ `for (;;)` loop carries no
bound of its own (it never terminates when `paramsPerLevel ≤ 0` while
`nParameters > maxElements`; the only call passes 5), so the model adds
explicit recursion fuel, returning the current depth when it runs out;
`findDepth` passes enough fuel that the bailout is never reached. -/
def findDepthAux (nParameters paramsPerLevel : ℤ) : ℕ → ℕ → ℤ → ℕ
  | 0, depth, _ => depth
  | fuel + 1, depth, maxElements =>
    let m := maxElements + 2 ^ depth * paramsPerLevel
    if nParameters ≤ m then depth
    else findDepthAux nParameters paramsPerLevel fuel (depth + 1) m

/-- The `findDepth` lambda in `createParameterMapTree` (Benchmark.cxx:316),
started with `depth = 0`, `maxElements = 0` (and fuel that is provably
sufficient for the benchmark's `paramsPerLevel = 5`). -/
def findDepth (nParameters paramsPerLevel : ℤ) : ℕ :=
  findDepthAux nParameters paramsPerLevel (nParameters.toNat + 1) 0 0

/-- The `while` loop of `_createParameterMapTreeRecursive`
(Benchmark.cxx:294), structured over `slots`, the number of remaining
iterations the `addedParameters < 5` conjunct allows: while
`currentParameters < nParameters` and a slot remains, emplace
`{currentDirKey}/key{currentParameters} -> makeValue currentParameters`
and advance the counter. -/
def addTreeKeysGo (nParameters : ℤ) : ℕ → ℤ → String → ParameterMap → ℤ × ParameterMap
  | 0, currentParameters, _, parameterMap => (currentParameters, parameterMap)
  | slots + 1, currentParameters, currentDirKey, parameterMap =>
    if currentParameters < nParameters then
      addTreeKeysGo nParameters slots (currentParameters + 1) currentDirKey
        (emplace parameterMap (currentDirKey ++ "/key" ++ intDec currentParameters)
          (makeValue currentParameters))
    else (currentParameters, parameterMap)

/-- The `while` loop of `_createParameterMapTreeRecursive` in its original
interface: `addedParameters` keys were already added in this directory, so
`5 - addedParameters` slots remain.  Returns the updated
`currentParameters` (passed by reference in C++) and the updated map. -/
def addTreeKeysLoop (nParameters currentParameters : ℤ) (addedParameters : ℕ)
    (currentDirKey : String) (parameterMap : ParameterMap) : ℤ × ParameterMap :=
  addTreeKeysGo nParameters (5 - addedParameters) currentParameters currentDirKey parameterMap

/-- Body of `_createParameterMapTreeRecursive` (Benchmark.cxx:276),
structured over `fuel = neededDepth + 1 - currentDepth` (the number of
levels still allowed: the C++ guard `currentDepth > neededDepth` is
exactly `fuel = 0`): return when the depth budget is exhausted or all
parameters are placed; otherwise fill this directory with up to 5 keys,
then recurse into `{dir}/dirA` and `{dir}/dirB` one level deeper. -/
def treeRecGo (nParameters : ℤ) : ℕ → ℤ → String → ParameterMap → ℤ × ParameterMap
  | 0, currentParameters, _, parameterMap => (currentParameters, parameterMap)
  | fuel + 1, currentParameters, currentDirKey, parameterMap =>
    if currentParameters ≥ nParameters then (currentParameters, parameterMap)
    else
      let r1 := addTreeKeysLoop nParameters currentParameters 0 currentDirKey parameterMap
      let r2 := treeRecGo nParameters fuel r1.1 (currentDirKey ++ "/dirA") r1.2
      treeRecGo nParameters fuel r2.1 (currentDirKey ++ "/dirB") r2.2

/-- `_createParameterMapTreeRecursive` (Benchmark.cxx:276) in its original
interface.  (The C++ helper also receives `maxParametersPerDirectory` but
never reads it — the loop uses the literal 5 — so that argument is dropped
here.)  Returns the final `currentParameters` (a reference parameter in
C++) and the final map. -/
def createParameterMapTreeRecursive (nParameters currentParameters : ℤ)
    (neededDepth currentDepth : ℕ) (currentDirKey : String)
    (parameterMap : ParameterMap) : ℤ × ParameterMap :=
  treeRecGo nParameters (neededDepth + 1 - currentDepth) currentParameters currentDirKey
    parameterMap

/-- `createParameterMapTree` (Benchmark.cxx:309): computes
`neededDepth = findDepth nParameters 5` and runs the recursive filler from
depth 0 at root `/test/tree{n}` on an empty map. -/
def createParameterMapTree (nParameters : ℤ) : ParameterMap :=
  (createParameterMapTreeRecursive nParameters 0 (findDepth nParameters 5) 0
    (treeParameterPath nParameters) []).2

/-- One iteration of the `checkReturnedParameters` loop (Benchmark.cxx:208):
a missing key counts one mismatch; otherwise the value is looked up with
`operator[]` (twice when mismatching — once for the comparison, once for the
log line) and a differing value counts one mismatch.  The state is the
running count and the returned map (which `operator[]` could extend). -/
def checkStep (acc : ℤ × ParameterMap) (parameter : String × String) : ℤ × ParameterMap :=
  if countKey acc.2 parameter.1 = 0 then (acc.1 + 1, acc.2)
  else if (mapIndex acc.2 parameter.1).1 ≠ parameter.2 then
    (acc.1 + 1, (mapIndex (mapIndex acc.2 parameter.1).2 parameter.1).2)
  else (acc.1, (mapIndex acc.2 parameter.1).2)

/-- `checkReturnedParameters` (Benchmark.cxx:198): folds `checkStep` over
the generated (expected) map, starting from 0 mismatches; returns the
mismatch count and the final state of the returned map. -/
def checkReturnedParameters (generatedMap returnedMap : ParameterMap) : ℤ × ParameterMap :=
  generatedMap.foldl checkStep (0, returnedMap)

/-- Loop of `getParametersFromServer` (Benchmark.cxx:352) over the
remaining expected keys: each key is fetched with `getString`; an absent
key throws (modelled as `Except.error`), a present one is emplaced into the
accumulated result map. -/
def getParametersLoop (getString : String → Option String) (map : ParameterMap) :
    List (String × String) → Except String ParameterMap
  | [] => Except.ok map
  | kv :: rest =>
    match getString kv.1 with
    | some value => getParametersLoop getString (emplace map kv.1 value) rest
    | none => Except.error ("Failed to get key " ++ kv.1)

/-- `getParametersFromServer` (Benchmark.cxx:348), with the backend
abstracted as `getString : String → Option String`. -/
def getParametersFromServer (getString : String → Option String) (keys : ParameterMap) :
    Except String ParameterMap :=
  getParametersLoop getString [] keys

/-- `selectUri` (Benchmark.cxx:458): error on an empty URI list, the unique
URI when there is exactly one, otherwise the URI at index
`pid % serverUris.length`. -/
def selectUri (serverUris : List String) (pid : ℕ) : Except String String :=
  if h0 : serverUris.isEmpty then Except.error "No server URIs specified"
  else if serverUris.length = 1 then
    Except.ok (serverUris.get ⟨0, by
      simp only [List.isEmpty_iff] at h0
      exact List.length_pos.mpr h0⟩)
  else
    Except.ok (serverUris.get ⟨pid % serverUris.length, Nat.mod_lt _ (by
      simp only [List.isEmpty_iff] at h0
      exact List.length_pos.mpr h0)⟩)

/-- A broken-down wall-clock time (`std::tm`), restricted to the fields
`waitUntilNextInterval` reads and writes. -/
structure Tm where
  tm_hour : ℤ
  tm_min : ℤ
  tm_sec : ℤ
deriving DecidableEq, Repr

/-- The deadline computed by `waitUntilNextInterval` (Benchmark.cxx:166):
second 10 of the current minute when `tm_sec < 10`, otherwise second 10 of
the next minute (minute field incremented; `mktime` normalises overflow). -/
def nextIntervalTime (currentTime : Tm) : Tm :=
  if currentTime.tm_sec < 10 then { currentTime with tm_sec := 10 }
  else { currentTime with tm_min := currentTime.tm_min + 1, tm_sec := 10 }

/-! ### Decimal-rendering infrastructure -/

lemma digitChar_isDigit {d : ℕ} (h : d < 10) : (digitChar d).isDigit = true := by
  interval_cases d <;> decide

lemma digitChar_inj {d e : ℕ} (hd : d < 10) (he : e < 10) (h : digitChar d = digitChar e) :
    d = e := by
  interval_cases d <;> interval_cases e <;> revert h <;> decide

lemma natDecGo_eq : ∀ fuel n, n ≤ fuel → natDecGo fuel n = (Nat.digits 10 n).reverse.map digitChar := by
  intro fuel
  induction fuel with
  | zero =>
    intro n hn
    interval_cases n
    simp [natDecGo]
  | succ k ih =>
    intro n hn
    by_cases h0 : n = 0
    · simp [h0, natDecGo]
    · have hpos : 0 < n := Nat.pos_of_ne_zero h0
      rw [natDecGo, if_neg h0, Nat.digits_def' (by norm_num : (1:ℕ) < 10) hpos]
      have hdiv : n / 10 ≤ k := by
        have := Nat.div_lt_self hpos (by norm_num : 1 < 10)
        omega
      rw [ih (n / 10) hdiv]
      simp


lemma map_digitChar_inj : ∀ {l1 l2 : List ℕ}, (∀ x ∈ l1, x < 10) → (∀ x ∈ l2, x < 10) →
    l1.map digitChar = l2.map digitChar → l1 = l2 := by
  intro l1
  induction l1 with
  | nil => intro l2 _ _ h; cases l2 <;> simp_all
  | cons a t ih =>
    intro l2 h1 h2 h
    cases l2 with
    | nil => simp_all
    | cons b t2 =>
      simp only [List.map_cons, List.cons.injEq] at h
      have hab : a = b :=
        digitChar_inj (h1 a (by simp)) (h2 b (by simp)) h.1
      have := ih (fun x hx => h1 x (by simp [hx])) (fun x hx => h2 x (by simp [hx])) h.2
      simp [hab, this]

/-- The digit list (most significant first) that `natDec` renders: `[0]`
for zero, otherwise the base-10 digits reversed. -/
def decimalDigits (n : ℕ) : List ℕ :=
  if n = 0 then [0] else (Nat.digits 10 n).reverse

lemma decimalDigits_lt (n : ℕ) : ∀ d ∈ decimalDigits n, d < 10 := by
  intro d hd
  unfold decimalDigits at hd
  split at hd
  · simp at hd; omega
  · exact Nat.digits_lt_base (by norm_num) (List.mem_reverse.mp hd)

lemma decimalDigits_inj {m n : ℕ} (h : decimalDigits m = decimalDigits n) : m = n := by
  unfold decimalDigits at h
  by_cases hm : m = 0 <;> by_cases hn : n = 0
  · omega
  · rw [if_pos hm, if_neg hn] at h
    have hdig : Nat.digits 10 n = [0] := by
      simpa using congrArg List.reverse h.symm
    have := Nat.ofDigits_digits 10 n
    rw [hdig] at this
    simp [Nat.ofDigits] at this
    omega
  · rw [if_neg hm, if_pos hn] at h
    have hdig : Nat.digits 10 m = [0] := by
      simpa using congrArg List.reverse h
    have := Nat.ofDigits_digits 10 m
    rw [hdig] at this
    simp [Nat.ofDigits] at this
    omega
  · rw [if_neg hm, if_neg hn] at h
    exact Nat.digits_inj_iff.mp (List.reverse_inj.mp h)

lemma natDec_eq (n : ℕ) : natDec n = String.mk ((decimalDigits n).map digitChar) := by
  by_cases h : n = 0
  · subst h; decide
  · simp [natDec, h, decimalDigits, natDecGo_eq n n le_rfl]

lemma natDec_inj {m n : ℕ} (h : natDec m = natDec n) : m = n := by
  rw [natDec_eq, natDec_eq] at h
  have hdata : (decimalDigits m).map digitChar = (decimalDigits n).map digitChar :=
    congrArg String.data h
  exact decimalDigits_inj (map_digitChar_inj (decimalDigits_lt m) (decimalDigits_lt n) hdata)

lemma natDec_isDigit (n : ℕ) : ∀ c ∈ (natDec n).data, c.isDigit = true := by
  rw [natDec_eq]
  intro c hc
  obtain ⟨d, hd, rfl⟩ := List.mem_map.mp hc
  exact digitChar_isDigit (decimalDigits_lt n d hd)

lemma natDec_data_ne_nil (n : ℕ) : (natDec n).data ≠ [] := by
  rw [natDec_eq]
  intro h
  have : decimalDigits n = [] := by simpa using h
  unfold decimalDigits at this
  split at this
  · simp at this
  · exact (Nat.digits_ne_nil_iff_ne_zero.mpr (by assumption)) (by
      simpa using congrArg List.reverse this)

lemma takeWhile_all_append {p : Char → Bool} : ∀ {l : List Char} {c : Char} {t : List Char},
    (∀ x ∈ l, p x = true) → p c = false → (l ++ c :: t).takeWhile p = l := by
  intro l
  induction l with
  | nil =>
    intro c t _ hc
    simp [List.takeWhile_cons, hc]
  | cons a l2 ih =>
    intro c t hl hc
    have ha : p a = true := hl a (by simp)
    simp only [List.cons_append, List.takeWhile_cons, ha, if_true]
    rw [ih (fun x hx => hl x (by simp [hx])) hc]

lemma intDec_nonneg {n : ℤ} (h : 0 ≤ n) : intDec n = natDec n.toNat := by
  simp [intDec, not_lt.mpr h]

/-- Two keys of the form `{dir}/key{i}` agree only when the appended
indices agree, whatever the directory prefixes are: reading the string
from the right, the maximal digit suffix is exactly the rendered index
(the `y` of `key` is not a digit). -/
lemma keyTag_inj {a b : String} {i j : ℕ}
    (h : a ++ "/key" ++ natDec i = b ++ "/key" ++ natDec j) : i = j := by
  apply natDec_inj
  have hdata : (a.data ++ "/key".data) ++ (natDec i).data
      = (b.data ++ "/key".data) ++ (natDec j).data := by
    have h1 := congrArg String.data h
    rwa [String.data_append, String.data_append, String.data_append, String.data_append] at h1
  have hrev := congrArg List.reverse hdata
  rw [List.reverse_append, List.reverse_append, List.reverse_append, List.reverse_append]
    at hrev
  have hk : ("/key" : String).data.reverse = 'y' :: ('e' :: ('k' :: ('/' :: []))) := by decide
  rw [hk] at hrev
  simp only [List.append_assoc, List.cons_append, List.nil_append] at hrev
  have h1 : ((natDec i).data.reverse
      ++ 'y' :: ('e' :: ('k' :: ('/' :: a.data.reverse)))).takeWhile Char.isDigit
      = (natDec i).data.reverse :=
    takeWhile_all_append
      (fun x hx => natDec_isDigit i x (List.mem_reverse.mp hx)) (by decide)
  have h2 : ((natDec j).data.reverse
      ++ 'y' :: ('e' :: ('k' :: ('/' :: b.data.reverse)))).takeWhile Char.isDigit
      = (natDec j).data.reverse :=
    takeWhile_all_append
      (fun x hx => natDec_isDigit j x (List.mem_reverse.mp hx)) (by decide)
  have : (natDec i).data.reverse = (natDec j).data.reverse := by
    rw [← h1, ← h2, hrev]
  exact String.ext (List.reverse_inj.mp this)

/-! ### Map-construction lemmas -/

lemma emplace_of_fresh {m : ParameterMap} {k v : String} (h : containsKey m k = false) :
    emplace m k v = m ++ [(k, v)] := by
  simp [emplace, h]

/-- All keys of `m` carry a `{dir}/key{i}` tag with index below `bound`. -/
def keysBelow (m : ParameterMap) (bound : ℕ) : Prop :=
  ∀ kv ∈ m, ∃ a : String, ∃ i : ℕ, i < bound ∧ kv.1 = a ++ "/key" ++ natDec i

lemma keysBelow_nil (bound : ℕ) : keysBelow [] bound := by
  intro kv hkv; simp at hkv

lemma keysBelow_mono {m : ParameterMap} {b1 b2 : ℕ} (h : keysBelow m b1) (hb : b1 ≤ b2) :
    keysBelow m b2 := by
  intro kv hkv
  obtain ⟨a, i, hi, hk⟩ := h kv hkv
  exact ⟨a, i, by omega, hk⟩

lemma keysBelow_fresh {m : ParameterMap} {bound : ℕ} (hm : keysBelow m bound) (a : String) :
    containsKey m (a ++ "/key" ++ natDec bound) = false := by
  by_contra hcon
  rw [Bool.not_eq_false, containsKey, List.any_eq_true] at hcon
  obtain ⟨kv, hkv, heq⟩ := hcon
  rw [decide_eq_true_eq] at heq
  obtain ⟨b, i, hi, hk⟩ := hm kv hkv
  rw [hk] at heq
  have : i = bound := keyTag_inj heq
  omega

lemma keysBelow_snoc {m : ParameterMap} {bound : ℕ} (hm : keysBelow m bound)
    (a v : String) : keysBelow (m ++ [(a ++ "/key" ++ natDec bound, v)]) (bound + 1) := by
  intro kv hkv
  rcases List.mem_append.mp hkv with h | h
  · exact keysBelow_mono hm (by omega) kv h
  · simp at h
    exact ⟨a, bound, by omega, by rw [h]⟩

/-- Folding `emplace` with keys `{Q}/key{i}` over `0 … n-1` just appends
one entry per index: every key is fresh when it is inserted. -/
lemma range_emplace_eq (Q : String) (v : ℕ → String) (n : ℕ) :
    (List.range n).foldl (fun m i => emplace m (Q ++ "/key" ++ natDec i) (v i)) [] =
      (List.range n).map (fun i => (Q ++ "/key" ++ natDec i, v i)) := by
  induction n with
  | zero => rfl
  | succ k ih =>
    rw [List.range_succ, List.foldl_append, ih, List.map_append]
    have hkb : keysBelow ((List.range k).map fun i => (Q ++ "/key" ++ natDec i, v i)) k := by
      intro kv hkv
      obtain ⟨i, hi, rfl⟩ := List.mem_map.mp hkv
      exact ⟨Q, i, List.mem_range.mp hi, rfl⟩
    simp only [List.foldl_cons, List.foldl_nil, List.map_cons, List.map_nil]
    rw [emplace_of_fresh (keysBelow_fresh hkb Q)]

lemma createParameterMapSeparate_eq (nParams : ℤ) :
    createParameterMapSeparate nParams =
      (List.range nParams.toNat).map
        (fun i => ("/test/separate/key" ++ natDec i, makeValue i)) := by
  have h := range_emplace_eq "/test/separate" (fun i => makeValue i) nParams.toNat
  have hq : ("/test/separate" ++ "/key" : String) = "/test/separate/key" := rfl
  rw [hq] at h
  exact h

lemma createParameterMapFlat_eq (nParameters : ℤ) :
    createParameterMapFlat nParameters =
      (List.range nParameters.toNat).map
        (fun i => (flatParameterPath nParameters ++ "/" ++ "key" ++ natDec i, makeValue i)) := by
  have h := range_emplace_eq (flatParameterPath nParameters) (fun i => makeValue i)
    nParameters.toNat
  have hq : flatParameterPath nParameters ++ "/" ++ "key"
      = flatParameterPath nParameters ++ "/key" :=
    (String.append_assoc (flatParameterPath nParameters) "/" "key").trans rfl
  unfold createParameterMapFlat
  rw [show (fun (m : ParameterMap) (i : ℕ) =>
        emplace m (flatParameterPath nParameters ++ "/" ++ "key" ++ natDec i) (makeValue i))
      = (fun (m : ParameterMap) (i : ℕ) =>
        emplace m (flatParameterPath nParameters ++ "/key" ++ natDec i) (makeValue i)) from
    funext fun m => funext fun i => by rw [hq]]
  rw [h]
  refine List.map_congr_left fun i _ => ?_
  rw [hq]

lemma foldl_append_init : ∀ (l : List String) (x y : String),
    l.foldl (fun r s => r ++ s) (x ++ y) = x ++ l.foldl (fun r s => r ++ s) y := by
  intro l
  induction l with
  | nil => intro x y; simp
  | cons a t ih =>
    intro x y
    simp only [List.foldl_cons]
    rw [String.append_assoc, ih]

lemma stringJoin_cons (a : String) (l : List String) :
    String.join (a :: l) = a ++ String.join l := by
  show (a :: l).foldl (fun r s => r ++ s) "" = a ++ l.foldl (fun r s => r ++ s) ""
  simp only [List.foldl_cons]
  rw [String.empty_append, show (a : String) = a ++ "" from (String.append_empty a).symm,
    foldl_append_init]
  simp [String.append_empty]

lemma foldl_string_append (f : ℕ → String) :
    ∀ (l : List ℕ) (s : String),
      l.foldl (fun acc i => acc ++ f i) s = s ++ String.join (l.map f) := by
  intro l
  induction l with
  | nil => intro s; simp [String.join, String.append_empty]
  | cons a t ih =>
    intro s
    simp only [List.foldl_cons, List.map_cons]
    rw [ih, stringJoin_cons, String.append_assoc]

lemma createParameterMapCombined_eq (nParams : ℤ) :
    createParameterMapCombined nParams =
      [("/test/combined/key" ++ intDec nParams,
        String.join ((List.range nParams.toNat).map
          (fun i => "key" ++ natDec i ++ "=value" ++ padZeros 95 (natDec i) ++ "|")))] := by
  have hstep : ∀ (acc : String) (i : ℕ),
      acc ++ "key" ++ natDec i ++ "=value" ++ padZeros 95 (natDec i) ++ "|"
      = acc ++ ("key" ++ natDec i ++ "=value" ++ padZeros 95 (natDec i) ++ "|") := by
    intro acc i
    simp [String.append_assoc]
  simp only [createParameterMapCombined, hstep]
  rw [foldl_string_append (fun i => "key" ++ natDec i ++ "=value" ++ padZeros 95 (natDec i) ++ "|")]
  rw [String.empty_append]
  simp [emplace, containsKey]

/-! ### Tree-shape lemmas -/

/-- Total key capacity of a binary directory subtree spanning `fuel`
levels with 5 direct keys per directory: `5 * (2^fuel - 1)`. -/
def treeCap (fuel : ℕ) : ℤ := 5 * (2 ^ fuel - 1)

lemma treeCap_nonneg (fuel : ℕ) : 0 ≤ treeCap fuel := by
  unfold treeCap
  have : (0 : ℤ) < 2 ^ fuel := by positivity
  omega

lemma treeCap_succ (fuel : ℕ) : treeCap (fuel + 1) = 5 + 2 * treeCap fuel := by
  unfold treeCap
  rw [pow_succ]
  ring

/-- The values `makeValue start, …, makeValue (start + count - 1)`, in
order. -/
def valuesFrom (start count : ℕ) : List String :=
  (List.range count).map (fun k => makeValue (start + k : ℕ))

lemma valuesFrom_zero (start : ℕ) : valuesFrom start 0 = [] := rfl

lemma valuesFrom_succ_left (start count : ℕ) :
    valuesFrom start (count + 1) = makeValue (start : ℕ) :: valuesFrom (start + 1) count := by
  unfold valuesFrom
  rw [List.range_succ_eq_map, List.map_cons, List.map_map]
  refine congrArg₂ _ (by norm_num) ?_
  refine List.map_congr_left fun k _ => ?_
  simp [Nat.succ_eq_add_one]
  ring_nf

lemma valuesFrom_append (start a b : ℕ) :
    valuesFrom start a ++ valuesFrom (start + a) b = valuesFrom start (a + b) := by
  unfold valuesFrom
  rw [List.range_add, List.map_append, List.map_map]
  refine congrArg₂ _ rfl ?_
  refine List.map_congr_left fun k _ => ?_
  simp [Function.comp]
  ring_nf

lemma addTreeKeysGo_spec (n : ℤ) : ∀ (slots : ℕ) (cur : ℤ) (dir : String) (m : ParameterMap),
    0 ≤ cur → keysBelow m cur.toNat →
    (addTreeKeysGo n slots cur dir m).1 = cur + min (max (n - cur) 0) (slots : ℤ) ∧
    (addTreeKeysGo n slots cur dir m).2.map Prod.snd
      = m.map Prod.snd
        ++ valuesFrom cur.toNat ((addTreeKeysGo n slots cur dir m).1 - cur).toNat ∧
    keysBelow (addTreeKeysGo n slots cur dir m).2 (addTreeKeysGo n slots cur dir m).1.toNat := by
  intro slots
  induction slots with
  | zero =>
    intro cur dir m h0 hm
    refine ⟨?_, ?_, ?_⟩
    · simp only [addTreeKeysGo, Nat.cast_zero]
      omega
    · simp [addTreeKeysGo, valuesFrom_zero]
    · simpa [addTreeKeysGo] using hm
  | succ k ih =>
    intro cur dir m h0 hm
    by_cases hlt : cur < n
    · have hkey : intDec cur = natDec cur.toNat := intDec_nonneg h0
      have hfresh := keysBelow_fresh hm dir
      have hstep : addTreeKeysGo n (k + 1) cur dir m
          = addTreeKeysGo n k (cur + 1) dir
            (m ++ [(dir ++ "/key" ++ natDec cur.toNat, makeValue cur)]) := by
        rw [addTreeKeysGo, if_pos hlt, hkey, emplace_of_fresh hfresh]
      have hm2 : keysBelow (m ++ [(dir ++ "/key" ++ natDec cur.toNat, makeValue cur)])
          (cur + 1).toNat := by
        have hsnoc := keysBelow_snoc hm dir (makeValue cur)
        have ht : (cur + 1).toNat = cur.toNat + 1 := by omega
        rwa [ht]
      obtain ⟨ih1, ih2, ih3⟩ := ih (cur + 1) dir
        (m ++ [(dir ++ "/key" ++ natDec cur.toNat, makeValue cur)]) (by omega) hm2
      rw [hstep]
      refine ⟨by rw [ih1]; push_cast; omega, ?_, ih3⟩
      rw [ih2]
      have hge : cur + 1 ≤ (addTreeKeysGo n k (cur + 1) dir
          (m ++ [(dir ++ "/key" ++ natDec cur.toNat, makeValue cur)])).1 := by
        rw [ih1]; omega
      set r1 := (addTreeKeysGo n k (cur + 1) dir
          (m ++ [(dir ++ "/key" ++ natDec cur.toNat, makeValue cur)])).1 with hr1
      have hcount : (r1 - cur).toNat = (r1 - (cur + 1)).toNat + 1 := by omega
      have ht1 : (cur + 1).toNat = cur.toNat + 1 := by omega
      rw [hcount, ht1, valuesFrom_succ_left]
      rw [show makeValue (cur.toNat : ℤ) = makeValue cur from by rw [Int.toNat_of_nonneg h0]]
      simp [List.append_assoc]
    · refine ⟨?_, ?_, ?_⟩
      · simp only [addTreeKeysGo, if_neg hlt]
        push_cast
        omega
      · simp [addTreeKeysGo, if_neg hlt, valuesFrom_zero]
      · simpa [addTreeKeysGo, if_neg hlt] using hm

lemma treeRecGo_spec (n : ℤ) : ∀ (fuel : ℕ) (cur : ℤ) (dir : String) (m : ParameterMap),
    0 ≤ cur → keysBelow m cur.toNat →
    (treeRecGo n fuel cur dir m).1 = cur + min (max (n - cur) 0) (treeCap fuel) ∧
    (treeRecGo n fuel cur dir m).2.map Prod.snd
      = m.map Prod.snd ++ valuesFrom cur.toNat ((treeRecGo n fuel cur dir m).1 - cur).toNat ∧
    keysBelow (treeRecGo n fuel cur dir m).2 (treeRecGo n fuel cur dir m).1.toNat := by
  intro fuel
  induction fuel with
  | zero =>
    intro cur dir m h0 hm
    refine ⟨?_, ?_, ?_⟩
    · simp only [treeRecGo]
      have hc : treeCap 0 = 0 := by norm_num [treeCap]
      rw [hc]
      omega
    · simp [treeRecGo, valuesFrom_zero]
    · simpa [treeRecGo] using hm
  | succ fuel ih =>
    intro cur dir m h0 hm
    by_cases hge : cur ≥ n
    · have hcap := treeCap_nonneg (fuel + 1)
      refine ⟨?_, ?_, ?_⟩
      · simp only [treeRecGo, if_pos hge]
        omega
      · simp [treeRecGo, if_pos hge, valuesFrom_zero]
      · simpa [treeRecGo, if_pos hge] using hm
    · obtain ⟨a1, a2, a3⟩ := addTreeKeysGo_spec n 5 cur dir m h0 hm
      have h0b : 0 ≤ (addTreeKeysGo n 5 cur dir m).1 := by omega
      obtain ⟨b1, b2, b3⟩ := ih (addTreeKeysGo n 5 cur dir m).1 (dir ++ "/dirA")
        (addTreeKeysGo n 5 cur dir m).2 h0b a3
      have ht := treeCap_nonneg fuel
      have h0c : 0 ≤ (treeRecGo n fuel (addTreeKeysGo n 5 cur dir m).1 (dir ++ "/dirA")
          (addTreeKeysGo n 5 cur dir m).2).1 := by omega
      obtain ⟨c1, c2, c3⟩ := ih (treeRecGo n fuel (addTreeKeysGo n 5 cur dir m).1
          (dir ++ "/dirA") (addTreeKeysGo n 5 cur dir m).2).1 (dir ++ "/dirB")
        (treeRecGo n fuel (addTreeKeysGo n 5 cur dir m).1 (dir ++ "/dirA")
          (addTreeKeysGo n 5 cur dir m).2).2 h0c b3
      have hstep : treeRecGo n (fuel + 1) cur dir m
          = treeRecGo n fuel (treeRecGo n fuel (addTreeKeysGo n 5 cur dir m).1
              (dir ++ "/dirA") (addTreeKeysGo n 5 cur dir m).2).1 (dir ++ "/dirB")
            (treeRecGo n fuel (addTreeKeysGo n 5 cur dir m).1 (dir ++ "/dirA")
              (addTreeKeysGo n 5 cur dir m).2).2 := by
        rw [treeRecGo, if_neg hge]
        simp only [addTreeKeysLoop, Nat.sub_zero]
      rw [hstep]
      set q1 := addTreeKeysGo n 5 cur dir m with hq1
      set q2 := treeRecGo n fuel q1.1 (dir ++ "/dirA") q1.2 with hq2
      set q3 := treeRecGo n fuel q2.1 (dir ++ "/dirB") q2.2 with hq3
      refine ⟨?_, ?_, c3⟩
      · rw [treeCap_succ]
        omega
      · rw [c2, b2, a2]
        rw [List.append_assoc, List.append_assoc]
        congr 1
        have e1 : q1.1.toNat = cur.toNat + (q1.1 - cur).toNat := by omega
        have e2 : q2.1.toNat = cur.toNat + (q1.1 - cur).toNat + (q2.1 - q1.1).toNat := by
          omega
        rw [e1, e2, valuesFrom_append, valuesFrom_append]
        congr 1
        omega

lemma sum_levels_eq_treeCap (d : ℕ) :
    (∑ l ∈ Finset.range d, (5 : ℤ) * 2 ^ l) = treeCap d := by
  induction d with
  | zero => simp [treeCap]
  | succ k ih =>
    rw [Finset.sum_range_succ, ih]
    unfold treeCap
    rw [pow_succ]
    ring

lemma findDepthAux_spec (n : ℤ) : ∀ (fuel depth : ℕ),
    (∃ d : ℕ, depth ≤ d ∧ d < depth + fuel ∧ n ≤ treeCap (d + 1)) →
    n ≤ treeCap (findDepthAux n 5 fuel depth (treeCap depth) + 1) ∧
    depth ≤ findDepthAux n 5 fuel depth (treeCap depth) ∧
    ∀ d : ℕ, depth ≤ d → n ≤ treeCap (d + 1) →
      findDepthAux n 5 fuel depth (treeCap depth) ≤ d := by
  intro fuel
  induction fuel with
  | zero =>
    intro depth hex
    obtain ⟨d, h1, h2, _⟩ := hex
    omega
  | succ k ih =>
    intro depth hex
    have hm : treeCap depth + 2 ^ depth * 5 = treeCap (depth + 1) := by
      unfold treeCap
      rw [pow_succ]
      ring
    by_cases hc : n ≤ treeCap depth + 2 ^ depth * 5
    · have hr : findDepthAux n 5 (k + 1) depth (treeCap depth) = depth := by
        rw [findDepthAux]
        simp only [if_pos hc]
      rw [hr]
      exact ⟨by rw [← hm]; exact hc, le_refl depth, fun d hd _ => hd⟩
    · have hrec : findDepthAux n 5 (k + 1) depth (treeCap depth)
          = findDepthAux n 5 k (depth + 1) (treeCap (depth + 1)) := by
        rw [findDepthAux]
        simp only [if_neg hc]
        rw [hm]
      rw [hrec]
      have hex2 : ∃ d : ℕ, depth + 1 ≤ d ∧ d < (depth + 1) + k ∧ n ≤ treeCap (d + 1) := by
        obtain ⟨d, h1, h2, h3⟩ := hex
        refine ⟨d, ?_, by omega, h3⟩
        rcases Nat.eq_or_lt_of_le h1 with he | hl
        · exfalso
          rw [← he] at h3
          rw [← hm] at h3
          exact hc h3
        · omega
      obtain ⟨i1, i2, i3⟩ := ih (depth + 1) hex2
      refine ⟨i1, by omega, ?_⟩
      intro d hd hle
      have hne : d ≠ depth := by
        intro he
        rw [he, ← hm] at hle
        exact hc hle
      exact i3 d (by omega) hle

lemma findDepth_spec (n : ℤ) :
    n ≤ treeCap (findDepth n 5 + 1) ∧
    ∀ d : ℕ, n ≤ treeCap (d + 1) → findDepth n 5 ≤ d := by
  have h0cap : treeCap 0 = 0 := by norm_num [treeCap]
  have hcapBig : n ≤ treeCap (n.toNat + 1) := by
    have h2 : (n.toNat + 1 : ℕ) < 2 ^ (n.toNat + 1) := Nat.lt_two_pow (n.toNat + 1)
    have h2z : ((n.toNat : ℤ) + 1) < (2 : ℤ) ^ (n.toNat + 1) := by exact_mod_cast h2
    unfold treeCap
    omega
  obtain ⟨s1, s2, s3⟩ := findDepthAux_spec n (n.toNat + 1) 0
    ⟨n.toNat, by omega, by omega, hcapBig⟩
  rw [h0cap] at s1 s3
  exact ⟨s1, fun d hd => s3 d (by omega) hd⟩

lemma createParameterMapTree_snd (n : ℤ) (h : 0 ≤ n) :
    (createParameterMapTree n).map Prod.snd = valuesFrom 0 n.toNat := by
  unfold createParameterMapTree createParameterMapTreeRecursive
  rw [Nat.sub_zero]
  obtain ⟨t1, t2, _⟩ := treeRecGo_spec n (findDepth n 5 + 1) 0 (treeParameterPath n) []
    le_rfl (keysBelow_nil 0)
  obtain ⟨f1, _⟩ := findDepth_spec n
  have hr : (treeRecGo n (findDepth n 5 + 1) 0 (treeParameterPath n) []).1 = n := by
    rw [t1]
    omega
  rw [t2, hr]
  simp

lemma createParameterMapTree_length (n : ℤ) (h : 0 ≤ n) :
    (createParameterMapTree n).length = n.toNat := by
  have hsnd := congrArg List.length (createParameterMapTree_snd n h)
  simpa [valuesFrom] using hsnd

lemma emplace_length_le (m : ParameterMap) (k v : String) :
    (emplace m k v).length ≤ m.length + 1 := by
  unfold emplace
  split <;> simp

lemma addTreeKeysGo_length_le (n : ℤ) : ∀ (slots : ℕ) (cur : ℤ) (dir : String)
    (m : ParameterMap), (addTreeKeysGo n slots cur dir m).2.length ≤ m.length + slots := by
  intro slots
  induction slots with
  | zero => intro cur dir m; simp [addTreeKeysGo]
  | succ k ih =>
    intro cur dir m
    by_cases hlt : cur < n
    · rw [addTreeKeysGo, if_pos hlt]
      have h1 := ih (cur + 1) dir
        (emplace m (dir ++ "/key" ++ intDec cur) (makeValue cur))
      have h2 := emplace_length_le m (dir ++ "/key" ++ intDec cur) (makeValue cur)
      omega
    · rw [addTreeKeysGo, if_neg hlt]
      simp

/-! ### Reconciliation lemmas -/

lemma countKey_eq_zero_iff {m : ParameterMap} {k : String} :
    countKey m k = 0 ↔ containsKey m k = false := by
  rw [countKey, containsKey, List.length_eq_zero, List.filter_eq_nil_iff,
    List.any_eq_false]

lemma mapIndex_of_contains {m : ParameterMap} {k : String} (h : containsKey m k = true) :
    (mapIndex m k).2 = m := by
  rw [containsKey, List.any_eq_true] at h
  have hsome : (m.find? (fun kv => decide (kv.1 = k))).isSome = true :=
    List.find?_isSome.mpr h
  unfold mapIndex
  obtain ⟨kv, hkv⟩ := Option.isSome_iff_exists.mp hsome
  rw [hkv]

lemma contains_of_countKey_ne {m : ParameterMap} {k : String} (h : ¬ countKey m k = 0) :
    containsKey m k = true := by
  cases hx : containsKey m k with
  | false => exact absurd (countKey_eq_zero_iff.mpr hx) h
  | true => rfl

lemma checkStep_snd (acc : ℤ × ParameterMap) (p : String × String) :
    (checkStep acc p).2 = acc.2 := by
  unfold checkStep
  by_cases h : countKey acc.2 p.1 = 0
  · rw [if_pos h]
  · have hcon : containsKey acc.2 p.1 = true := contains_of_countKey_ne h
    have hm1 : (mapIndex acc.2 p.1).2 = acc.2 := mapIndex_of_contains hcon
    rw [if_neg h]
    split
    · show (mapIndex (mapIndex acc.2 p.1).2 p.1).2 = acc.2
      rw [hm1]
      exact hm1
    · exact hm1

lemma checkFold_snd (g : List (String × String)) : ∀ (acc : ℤ × ParameterMap),
    (g.foldl checkStep acc).2 = acc.2 := by
  induction g with
  | nil => intro acc; rfl
  | cons p t ih =>
    intro acc
    rw [List.foldl_cons, ih, checkStep_snd]

lemma checkStep_fst (c : ℤ) (r : ParameterMap) (p : String × String) :
    (checkStep (c, r) p).1 = c + (if containsKey r p.1 = false then 1 else 0)
      + (if containsKey r p.1 = true ∧ ¬ (mapIndex r p.1).1 = p.2 then 1 else 0) := by
  unfold checkStep
  by_cases h : countKey r p.1 = 0
  · have hfalse := countKey_eq_zero_iff.mp h
    simp [h, hfalse]
  · have hcon : containsKey r p.1 = true := contains_of_countKey_ne h
    by_cases hv : (mapIndex r p.1).1 = p.2
    · simp [h, hcon, hv]
    · simp [h, hcon, hv]

lemma checkFold_fst (r : ParameterMap) : ∀ (g : List (String × String)) (c : ℤ),
    (g.foldl checkStep (c, r)).1
      = c + (g.countP (fun e => !(containsKey r e.1)) : ℤ)
        + (g.countP (fun e => containsKey r e.1 && !((mapIndex r e.1).1 == e.2)) : ℤ) := by
  intro g
  induction g with
  | nil => intro c; simp
  | cons p t ih =>
    intro c
    rw [List.foldl_cons]
    rcases hcs : checkStep (c, r) p with ⟨c1, r1⟩
    have hr1 : r1 = r := by
      have hsnd := checkStep_snd (c, r) p
      rw [hcs] at hsnd
      exact hsnd
    rw [hr1, ih c1]
    have hc1 : c1 = (checkStep (c, r) p).1 := by rw [hcs]
    rw [hc1, checkStep_fst, List.countP_cons, List.countP_cons]
    by_cases hcon : containsKey r p.1 = true
    · by_cases hv : (mapIndex r p.1).1 = p.2
      · simp [hcon, hv]
      · simp [hcon, hv]
        ring
    · have hf : containsKey r p.1 = false := by
        cases hx : containsKey r p.1 with
        | false => rfl
        | true => exact absurd hx hcon
      simp [hf]
      ring

lemma checkReturnedParameters_fst (g r : ParameterMap) :
    (checkReturnedParameters g r).1
      = (g.countP (fun e => !(containsKey r e.1)) : ℤ)
        + (g.countP (fun e => containsKey r e.1 && !((mapIndex r e.1).1 == e.2)) : ℤ) := by
  unfold checkReturnedParameters
  rw [checkFold_fst]
  ring

lemma find_eq_of_nodupKeys : ∀ {g : ParameterMap}, (g.map Prod.fst).Nodup →
    ∀ {e : String × String}, e ∈ g → g.find? (fun kv => kv.1 = e.1) = some e := by
  intro g
  induction g with
  | nil => intro _ e he; simp at he
  | cons a t ih =>
    intro hn e he
    rw [List.map_cons, List.nodup_cons] at hn
    rcases List.mem_cons.mp he with rfl | ht
    · rw [List.find?_cons]
      simp
    · rw [List.find?_cons]
      have hne : ¬ (a.1 = e.1) := by
        intro hcontra
        exact hn.1 (hcontra ▸ List.mem_map_of_mem Prod.fst ht)
      simp [hne]
      exact ih hn.2 ht

lemma contains_of_mem {m : ParameterMap} {e : String × String} (h : e ∈ m) :
    containsKey m e.1 = true := by
  rw [containsKey, List.any_eq_true]
  exact ⟨e, h, by simp⟩

lemma mapIndex_fst_of_nodup {g : ParameterMap} (hn : (g.map Prod.fst).Nodup)
    {e : String × String} (he : e ∈ g) : (mapIndex g e.1).1 = e.2 := by
  unfold mapIndex
  rw [find_eq_of_nodupKeys hn he]

/-! ### Retrieval lemmas -/

lemma containsKey_append {m1 m2 : ParameterMap} {k : String} :
    containsKey (m1 ++ m2) k = (containsKey m1 k || containsKey m2 k) := by
  simp [containsKey]

lemma getParametersLoop_ok_iff (gs : String → Option String) :
    ∀ (keys : List (String × String)) (m : ParameterMap),
      (∃ res, getParametersLoop gs m keys = Except.ok res) ↔
        ∀ kv ∈ keys, (gs kv.1).isSome = true := by
  intro keys
  induction keys with
  | nil => intro m; simp [getParametersLoop]
  | cons kv rest ih =>
    intro m
    cases hgs : gs kv.1 with
    | none => simp [getParametersLoop, hgs]
    | some v =>
      simp only [getParametersLoop, hgs]
      rw [ih (emplace m kv.1 v)]
      simp [hgs]

lemma getParametersLoop_ok_val (gs : String → Option String) :
    ∀ (keys : List (String × String)) (m : ParameterMap),
      (∀ kv ∈ keys, containsKey m kv.1 = false) →
      (keys.map Prod.fst).Nodup →
      (∀ kv ∈ keys, (gs kv.1).isSome = true) →
      getParametersLoop gs m keys
        = Except.ok (m ++ keys.map (fun kv => (kv.1, (gs kv.1).getD ""))) := by
  intro keys
  induction keys with
  | nil => intro m _ _ _; simp [getParametersLoop]
  | cons kv rest ih =>
    intro m hfresh hnodup hsome
    obtain ⟨v, hv⟩ := Option.isSome_iff_exists.mp (hsome kv (by simp))
    rw [List.map_cons, List.nodup_cons] at hnodup
    simp only [getParametersLoop, hv]
    rw [emplace_of_fresh (hfresh kv (by simp))]
    have hfresh2 : ∀ e ∈ rest, containsKey (m ++ [(kv.1, v)]) e.1 = false := by
      intro e he
      rw [containsKey_append]
      have h1 : containsKey m e.1 = false := hfresh e (by simp [he])
      have h2 : containsKey [(kv.1, v)] e.1 = false := by
        simp [containsKey]
        intro hcontra
        exact hnodup.1 (hcontra ▸ List.mem_map_of_mem Prod.fst he)
      rw [h1, h2]
      rfl
    rw [ih (m ++ [(kv.1, v)]) hfresh2 hnodup.2 (fun e he => hsome e (by simp [he]))]
    rw [List.map_cons, List.append_assoc]
    have hval : ((kv.1, v) : String × String) = (kv.1, (gs kv.1).getD "") := by
      rw [hv]
      rfl
    rw [hval]
    rfl

lemma getParametersFromServer_ok_iff (gs : String → Option String) (keys : ParameterMap) :
    (∃ res, getParametersFromServer gs keys = Except.ok res) ↔
      ∀ kv ∈ keys, (gs kv.1).isSome = true :=
  getParametersLoop_ok_iff gs keys []

lemma getParametersFromServer_ok_val (gs : String → Option String) (keys : ParameterMap)
    (hnodup : (keys.map Prod.fst).Nodup)
    (hsome : ∀ kv ∈ keys, (gs kv.1).isSome = true) :
    getParametersFromServer gs keys
      = Except.ok (keys.map (fun kv => (kv.1, (gs kv.1).getD ""))) := by
  unfold getParametersFromServer
  rw [getParametersLoop_ok_val gs keys [] (fun kv _ => rfl) hnodup hsome]
  rfl

/-! ### Claim theorems -/

/-- C1: for every n ≥ 0, the Separate, Flat and Tree shapes generate
exactly n map entries, and the Combined shape generates exactly 1 entry
(for Tree, the computed depth gives cumulative capacity ≥ n, so the
pre-order assignment places all n indices). -/
theorem C1_shape_entry_counts (n : ℤ) (h : 0 ≤ n) :
    (createParameterMapSeparate n).length = n.toNat ∧
    (createParameterMapFlat n).length = n.toNat ∧
    (createParameterMapTree n).length = n.toNat ∧
    (createParameterMapCombined n).length = 1 := by
  refine ⟨?_, ?_, createParameterMapTree_length n h, ?_⟩
  · rw [createParameterMapSeparate_eq]
    simp
  · rw [createParameterMapFlat_eq]
    simp
  · rw [createParameterMapCombined_eq]
    rfl

theorem C1_shape_entry_counts_witness :
    (0 : ℤ) ≤ 7 ∧
      ((createParameterMapSeparate 7).length = (7 : ℤ).toNat ∧
       (createParameterMapFlat 7).length = (7 : ℤ).toNat ∧
       (createParameterMapTree 7).length = (7 : ℤ).toNat ∧
       (createParameterMapCombined 7).length = 1) :=
  ⟨by decide, C1_shape_entry_counts 7 (by decide)⟩

/-- C2: `findDepth` with per-directory capacity 5 returns the smallest
D ≥ 0 with `∑ level ∈ [0..D], 5 * 2^level ≥ n`; in particular depth 0 for
n = 0 and n = 5, and depth 1 for n = 6. -/
theorem C2_findDepth_minimal (n : ℤ) :
    (n ≤ ∑ l ∈ Finset.range (findDepth n 5 + 1), (5 : ℤ) * 2 ^ l) ∧
    (∀ d : ℕ, (n ≤ ∑ l ∈ Finset.range (d + 1), (5 : ℤ) * 2 ^ l) → findDepth n 5 ≤ d) ∧
    findDepth 0 5 = 0 ∧ findDepth 5 5 = 0 ∧ findDepth 6 5 = 1 := by
  obtain ⟨f1, f2⟩ := findDepth_spec n
  refine ⟨?_, ?_, by decide, by decide, by decide⟩
  · rw [sum_levels_eq_treeCap]
    exact f1
  · intro d hd
    exact f2 d (by rwa [sum_levels_eq_treeCap] at hd)

theorem C2_findDepth_minimal_witness :
    ((6 : ℤ) ≤ ∑ l ∈ Finset.range (1 + 1), (5 : ℤ) * 2 ^ l) ∧ findDepth 6 5 ≤ 1 :=
  ⟨by decide, (C2_findDepth_minimal 6).2.1 1 (by decide)⟩

/-- C3: tree generation assigns the indices 0..n-1 consecutively in
depth-first pre-order (the entry list, in insertion order, carries the
values `makeValue 0 … makeValue (n-1)`); one directory fill adds at most
5 direct keys; and for n = 6 the generated map is exactly key0..key4
directly in the root `/test/tree6` followed by the single key5 in
`/test/tree6/dirA`. -/
theorem C3_tree_preorder (n : ℤ) (h : 0 ≤ n) :
    (createParameterMapTree n).map Prod.snd
        = (List.range n.toNat).map (fun i : ℕ => makeValue (i : ℤ)) ∧
    (∀ (n2 cur : ℤ) (dir : String) (m : ParameterMap),
        (addTreeKeysLoop n2 cur 0 dir m).2.length ≤ m.length + 5) ∧
    createParameterMapTree 6 =
      [("/test/tree6/key0", makeValue 0), ("/test/tree6/key1", makeValue 1),
       ("/test/tree6/key2", makeValue 2), ("/test/tree6/key3", makeValue 3),
       ("/test/tree6/key4", makeValue 4), ("/test/tree6/dirA/key5", makeValue 5)] := by
  refine ⟨?_, ?_, by decide⟩
  · rw [createParameterMapTree_snd n h]
    unfold valuesFrom
    simp
  · intro n2 cur dir m
    exact addTreeKeysGo_length_le n2 5 cur dir m

theorem C3_tree_preorder_witness :
    (0 : ℤ) ≤ 6 ∧ (createParameterMapTree 6).map Prod.snd
      = (List.range (6 : ℤ).toNat).map (fun i : ℕ => makeValue (i : ℤ)) :=
  ⟨by decide, (C3_tree_preorder 6 (by decide)).1⟩

/-- C4: the reconciliation count equals the number of expected entries
whose key is absent from the actual map plus the number of entries whose
key is present with a differing value; keys only in the actual map and
pure size differences contribute nothing.  Consequently a map checked
against an identical copy yields 0, and against a copy with one entry
removed yields exactly 1. -/
theorem C4_reconciliation_count :
    (∀ g r : ParameterMap, (checkReturnedParameters g r).1
        = (g.countP (fun e => !(containsKey r e.1)) : ℤ)
          + (g.countP (fun e => containsKey r e.1 && !((mapIndex r e.1).1 == e.2)) : ℤ)) ∧
    (∀ g : ParameterMap, (g.map Prod.fst).Nodup → (checkReturnedParameters g g).1 = 0) ∧
    (∀ (g : ParameterMap) (kv : String × String), (g.map Prod.fst).Nodup → kv ∈ g →
        (checkReturnedParameters g (g.erase kv)).1 = 1) := by
  refine ⟨checkReturnedParameters_fst, ?_, ?_⟩
  · intro g hn
    rw [checkReturnedParameters_fst]
    have h1 : g.countP (fun e => !(containsKey g e.1)) = 0 :=
      List.countP_eq_zero.mpr fun e he => by simp [contains_of_mem he]
    have h2 : g.countP (fun e => containsKey g e.1 && !((mapIndex g e.1).1 == e.2)) = 0 :=
      List.countP_eq_zero.mpr fun e he => by simp [mapIndex_fst_of_nodup hn he]
    rw [h1, h2]
    rfl
  · intro g kv hn hkv
    obtain ⟨l1, l2, hnotin, hg, herase⟩ := List.exists_erase_eq hkv
    subst hg
    rw [herase, checkReturnedParameters_fst]
    have hmapn : ((l1 ++ kv :: l2).map Prod.fst)
        = l1.map Prod.fst ++ kv.1 :: l2.map Prod.fst := by simp
    rw [hmapn] at hn
    have hmid := List.nodup_middle.mp hn
    rw [List.nodup_cons] at hmid
    have hk1 : kv.1 ∉ l1.map Prod.fst ++ l2.map Prod.fst := hmid.1
    have hk2e : ((l1 ++ l2).map Prod.fst).Nodup := by simpa using hmid.2
    have hcontkv : containsKey (l1 ++ l2) kv.1 = false := by
      cases hx : containsKey (l1 ++ l2) kv.1 with
      | false => rfl
      | true =>
        exfalso
        rw [containsKey, List.any_eq_true] at hx
        obtain ⟨e, he, hpe⟩ := hx
        rw [decide_eq_true_eq] at hpe
        refine hk1 ?_
        have hmem : e.1 ∈ (l1 ++ l2).map Prod.fst := List.mem_map_of_mem Prod.fst he
        rw [hpe] at hmem
        simpa using hmem
    have hconte : ∀ e ∈ l1 ++ l2, containsKey (l1 ++ l2) e.1 = true :=
      fun e he => contains_of_mem he
    have hlook : ∀ e ∈ l1 ++ l2, (mapIndex (l1 ++ l2) e.1).1 = e.2 :=
      fun e he => mapIndex_fst_of_nodup hk2e he
    have hc1 : (l1 ++ kv :: l2).countP (fun e => !(containsKey (l1 ++ l2) e.1)) = 1 := by
      rw [List.countP_append, List.countP_cons]
      have h1 : l1.countP (fun e => !(containsKey (l1 ++ l2) e.1)) = 0 :=
        List.countP_eq_zero.mpr (fun e he => by
          simp [hconte e (List.mem_append.mpr (Or.inl he))])
      have h2 : l2.countP (fun e => !(containsKey (l1 ++ l2) e.1)) = 0 :=
        List.countP_eq_zero.mpr (fun e he => by
          simp [hconte e (List.mem_append.mpr (Or.inr he))])
      simp [h1, h2, hcontkv]
    have hc2 : (l1 ++ kv :: l2).countP
        (fun e => containsKey (l1 ++ l2) e.1
          && !((mapIndex (l1 ++ l2) e.1).1 == e.2)) = 0 := by
      rw [List.countP_eq_zero]
      intro e he
      rcases List.mem_append.mp he with h | h
      · simp [hlook e (List.mem_append.mpr (Or.inl h))]
      · rcases List.mem_cons.mp h with rfl | h2
        · simp [hcontkv]
        · simp [hlook e (List.mem_append.mpr (Or.inr h2))]
    rw [hc1, hc2]
    rfl

theorem C4_reconciliation_count_witness :
    (checkReturnedParameters [("a", "1"), ("b", "2")] [("a", "1"), ("b", "2")]).1 = 0 ∧
    (checkReturnedParameters [("a", "1"), ("b", "2")]
        ([("a", "1"), ("b", "2")].erase ("a", "1"))).1 = 1 :=
  ⟨C4_reconciliation_count.2.1 [("a", "1"), ("b", "2")] (by decide),
   C4_reconciliation_count.2.2 [("a", "1"), ("b", "2")] ("a", "1") (by decide) (by decide)⟩

set_option maxRecDepth 8000 in
/-- C5: Combined generation yields exactly one entry, keyed
`/test/combined/key{n}`, whose value concatenates
`key{i}=value{i zero-padded to 95}|` for i = 0..n-1; for n = 0 the single
value is the empty string, and for n = 3 the single entry sits at
`/test/combined/key3`. -/
theorem C5_combined_single_entry (n : ℤ) (h : 0 ≤ n) :
    createParameterMapCombined n =
      [("/test/combined/key" ++ intDec n,
        String.join ((List.range n.toNat).map
          (fun i => "key" ++ natDec i ++ "=value" ++ padZeros 95 (natDec i) ++ "|")))] ∧
    createParameterMapCombined 0 = [("/test/combined/key0", "")] ∧
    createParameterMapCombined 3 =
      [("/test/combined/key3",
        "key0=value" ++ padZeros 95 "0" ++ "|" ++ "key1=value" ++ padZeros 95 "1" ++ "|"
          ++ "key2=value" ++ padZeros 95 "2" ++ "|")] := by
  exact ⟨createParameterMapCombined_eq n, by decide, by decide⟩

theorem C5_combined_single_entry_witness :
    (0 : ℤ) ≤ 2 ∧ createParameterMapCombined 2 =
      [("/test/combined/key" ++ intDec 2,
        String.join ((List.range (2 : ℤ).toNat).map
          (fun i => "key" ++ natDec i ++ "=value" ++ padZeros 95 (natDec i) ++ "|")))] :=
  ⟨by decide, (C5_combined_single_entry 2 (by decide)).1⟩

/-- C6: endpoint selection returns the unique endpoint when only one is
configured, the endpoint at index pid mod k when k ≥ 2 are configured
("b" for list ["a","b","c"] and pid 7), and an error for an empty list. -/
theorem C6_endpoint_selection :
    (∀ (u : String) (p : ℕ), selectUri [u] p = Except.ok u) ∧
    (∀ (l : List String) (p : ℕ) (h : 2 ≤ l.length),
        selectUri l p = Except.ok (l.get ⟨p % l.length, Nat.mod_lt p (by omega)⟩)) ∧
    selectUri ["a", "b", "c"] 7 = Except.ok "b" ∧
    (∀ p : ℕ, selectUri [] p = Except.error "No server URIs specified") := by
  refine ⟨fun u p => rfl, ?_, rfl, fun p => rfl⟩
  intro l p h
  have hne : ¬ (l.isEmpty = true) := by
    cases l with
    | nil => simp at h
    | cons a t => simp
  have hlen : ¬ (l.length = 1) := by omega
  unfold selectUri
  rw [dif_neg hne, if_neg hlen]

theorem C6_endpoint_selection_witness :
    (2 : ℕ) ≤ (["x", "y"] : List String).length ∧
      selectUri ["x", "y"] 5 = Except.ok ((["x", "y"] : List String).get
        ⟨5 % (["x", "y"] : List String).length, Nat.mod_lt 5 (by decide)⟩) :=
  ⟨by decide, C6_endpoint_selection.2.1 ["x", "y"] 5 (by decide)⟩

/-- C7: the synchronized-start deadline keeps the current hour, sets the
seconds field to 10, and keeps the current minute when the clock has not
yet reached second 10, otherwise moves to the next minute. -/
theorem C7_sync_deadline (t : Tm) :
    (t.tm_sec < 10 → nextIntervalTime t = { t with tm_sec := 10 }) ∧
    (10 ≤ t.tm_sec → nextIntervalTime t
        = { t with tm_min := t.tm_min + 1, tm_sec := 10 }) := by
  constructor
  · intro h
    simp [nextIntervalTime, h]
  · intro h
    simp [nextIntervalTime, not_lt.mpr h]

theorem C7_sync_deadline_witness :
    ((5 : ℤ) < 10 ∧ nextIntervalTime ⟨12, 30, 5⟩ = ⟨12, 30, 10⟩) ∧
    ((10 : ℤ) ≤ 10 ∧ nextIntervalTime ⟨12, 30, 10⟩ = ⟨12, 31, 10⟩) :=
  ⟨⟨by decide, (C7_sync_deadline ⟨12, 30, 5⟩).1 (by decide)⟩,
   ⟨by decide, (C7_sync_deadline ⟨12, 30, 10⟩).2 (by decide)⟩⟩

/-- C8: the per-key retrieval succeeds exactly when every expected key is
present in the backend (an absent key aborts with an error), and on
success the returned map consists of exactly the fetched key/value
pairs. -/
theorem C8_get_individual (gs : String → Option String) (keys : ParameterMap) :
    ((∃ res, getParametersFromServer gs keys = Except.ok res) ↔
        ∀ kv ∈ keys, (gs kv.1).isSome = true) ∧
    ((keys.map Prod.fst).Nodup → (∀ kv ∈ keys, (gs kv.1).isSome = true) →
      getParametersFromServer gs keys
        = Except.ok (keys.map (fun kv => (kv.1, (gs kv.1).getD "")))) :=
  ⟨getParametersFromServer_ok_iff gs keys,
   fun hn hs => getParametersFromServer_ok_val gs keys hn hs⟩

theorem C8_get_individual_witness :
    getParametersFromServer (fun k => some ("v" ++ k)) [("a", "1"), ("b", "2")]
      = Except.ok ([("a", "1"), ("b", "2")].map
          (fun kv => (kv.1, ((fun k : String => some ("v" ++ k)) kv.1).getD ""))) :=
  (C8_get_individual (fun k => some ("v" ++ k)) [("a", "1"), ("b", "2")]).2
    (by decide) (by decide)

/-- C9: reconciliation is pure: checking leaves the returned (actual) map
exactly as it was — the `operator[]` lookup is only reached for keys that
are present, so it never inserts a default entry (and the generated map is
never written at all). -/
theorem C9_reconciliation_pure (generatedMap returnedMap : ParameterMap) :
    (checkReturnedParameters generatedMap returnedMap).2 = returnedMap :=
  checkFold_snd generatedMap (0, returnedMap)

/-- C10: every generation function is total on all integer inputs; for
n < 0 the Separate, Flat and Tree shapes return the empty map (the depth
search stops at depth 0 and the tree recursion returns at once), while the
Combined shape still returns one entry at `/test/combined/key{n}` with the
empty string as value. -/
theorem C10_negative_n_total (n : ℤ) (h : n < 0) :
    createParameterMapSeparate n = [] ∧
    createParameterMapFlat n = [] ∧
    createParameterMapTree n = [] ∧
    findDepth n 5 = 0 ∧
    createParameterMapCombined n = [("/test/combined/key" ++ intDec n, "")] := by
  have htn : n.toNat = 0 := by omega
  refine ⟨?_, ?_, ?_, ?_, ?_⟩
  · rw [createParameterMapSeparate_eq, htn]
    rfl
  · rw [createParameterMapFlat_eq, htn]
    rfl
  · unfold createParameterMapTree createParameterMapTreeRecursive
    rw [Nat.sub_zero, treeRecGo, if_pos (by omega : (0 : ℤ) ≥ n)]
  · unfold findDepth
    rw [htn]
    simp only [findDepthAux]
    split
    next => rfl
    next hcond =>
      exfalso
      norm_num at hcond
      omega
  · rw [createParameterMapCombined_eq, htn]
    rfl

theorem C10_negative_n_total_witness :
    (-1 : ℤ) < 0 ∧
      (createParameterMapSeparate (-1) = [] ∧
       createParameterMapFlat (-1) = [] ∧
       createParameterMapTree (-1) = [] ∧
       findDepth (-1) 5 = 0 ∧
       createParameterMapCombined (-1) = [("/test/combined/key" ++ intDec (-1), "")]) :=
  ⟨by decide, C10_negative_n_total (-1) (by decide)⟩
